import Mathlib

/-!
Verification of the arXiv → Discord digest pipeline.

Shallow embedding of the core modules:
* `src/util.py` — message packing (`split_long_line`, `split_blocks_to_messages`);
  Python strings are modelled as `List Char`.
* `src/state.py` — delivery ledger (`ensure_state_shape`, `load_state`,
  `compute_cutoff_utc`, `append_sent_ids`, `update_success_metadata`);
  UTC datetimes and timedeltas are modelled as integer numbers of seconds.
* `src/filter_rank.py` — `split_recent_and_educational`; the process-global
  `random` generator consumed by `random.sample` is made explicit as a stream
  of generator outputs.
* `src/main.py` — the commit-ordering skeleton of `run()`.
-/

namespace ArxivDigest

/-! ## Strings as lists of characters (src/util.py) -/

/-- Python strings, modelled as lists of characters. -/
abbrev Str := List Char

/-- The ASCII whitespace characters recognised by Python's `str.strip`,
`str.lstrip`, `str.rstrip` and `str.splitlines` on the ASCII plane. -/
def pyIsSpace (c : Char) : Bool :=
  c = ' ' || c = '\t' || c = '\n' || c = '\r' || c = '\x0b' || c = '\x0c'

/-- Python `s.lstrip()`. -/
def lstrip (s : Str) : Str := s.dropWhile pyIsSpace

/-- Python `s.rstrip()`. -/
def rstrip (s : Str) : Str := (s.reverse.dropWhile pyIsSpace).reverse

/-- Python `s.strip()`. -/
def strip (s : Str) : Str := lstrip (rstrip s)

/-- The non-whitespace content of a string, used to state the packing
round-trip property "ignoring separator whitespace". -/
def nonWs (s : Str) : Str := s.filter (fun c => !pyIsSpace c)

/-- Python `s.rfind(" ", 0, stop)` specialised to a single-space needle:
the greatest index `i < min stop (length s)` with `s[i] = ' '`, or `-1`.
`rfindCharGo i best t` scans `t` (which sits at offset `i` of the original
string), keeping the last space position seen so far in `best`. -/
def rfindCharGo (i : Nat) (best : Int) : Str → Int
  | [] => best
  | c :: rest => rfindCharGo (i + 1) (if c = ' ' then (i : Int) else best) rest

/-- Python `s.rfind(" ", 0, stop)`. -/
def rfindSpaceBefore (s : Str) (stop : Nat) : Int :=
  rfindCharGo 0 (-1) (s.take stop)

/-- One loop iteration of `split_long_line` (src/util.py lines 48–50):
`split_at = remaining.rfind(" ", 0, max_len)`, replaced by `max_len` when
`split_at <= 0`. -/
def splitIndex (maxLen : Nat) (remaining : Str) : Nat :=
  if rfindSpaceBefore remaining maxLen ≤ 0 then maxLen
  else (rfindSpaceBefore remaining maxLen).toNat

/-- `chunk = remaining[:split_at].rstrip()` (src/util.py line 51). -/
def chunkAt (maxLen : Nat) (remaining : Str) : Str :=
  rstrip (remaining.take (splitIndex maxLen remaining))

/-- The chunk appended by one loop iteration, after the
`if not chunk: chunk = remaining[:max_len]` fallback (src/util.py lines 52–55). -/
def splitChunk (maxLen : Nat) (remaining : Str) : Str :=
  if (chunkAt maxLen remaining).isEmpty then remaining.take maxLen
  else chunkAt maxLen remaining

/-- The number of characters consumed by one loop iteration (the final value
of `split_at`, src/util.py lines 52–54). -/
def splitStep (maxLen : Nat) (remaining : Str) : Nat :=
  if (chunkAt maxLen remaining).isEmpty then maxLen
  else splitIndex maxLen remaining

/-- `remaining = remaining[split_at:].lstrip()` (src/util.py line 56). -/
def splitRest (maxLen : Nat) (remaining : Str) : Str :=
  lstrip (remaining.drop (splitStep maxLen remaining))

/-- The `while len(remaining) > max_len` loop of `split_long_line`
(src/util.py lines 45–58), including the trailing
`if remaining: chunks.append(remaining)`.  `fuel` bounds the number of
iterations: for `1 ≤ maxLen` every iteration removes at least one character,
so `fuel = remaining.length` is never exhausted (the Python loop does not
terminate for `max_len = 0`). -/
def splitLongLineGo (maxLen : Nat) : Nat → Str → List Str
  | 0, remaining => if remaining.isEmpty then [] else [remaining]
  | fuel + 1, remaining =>
    if remaining.length ≤ maxLen then
      if remaining.isEmpty then [] else [remaining]
    else
      splitChunk maxLen remaining :: splitLongLineGo maxLen fuel (splitRest maxLen remaining)

/-- src/util.py `split_long_line(line, max_len)`. -/
def split_long_line (line : Str) (maxLen : Nat) : List Str :=
  if line.length ≤ maxLen then [line]
  else splitLongLineGo maxLen line.length line

/-- Python `s.splitlines()`, restricted to the line breaks that can actually
occur here: `\n`, `\r` and the pair `\r\n`.  `acc` holds the current line in
reverse; a trailing line break does not produce a trailing empty line.
`fuel` bounds the scan; each step consumes at least one character, so
`fuel = s.length` is never exhausted. -/
def splitlinesGo (fuel : Nat) (s : Str) (acc : Str) : List Str :=
  match fuel, s with
  | _, [] => [acc.reverse]
  | 0, s => [acc.reverse ++ s]
  | fuel + 1, c :: rest =>
    if c = '\r' ∧ rest.head? = some '\n' then
      acc.reverse :: (if rest.tail.isEmpty then [] else splitlinesGo fuel rest.tail [])
    else if c = '\n' ∨ c = '\r' then
      acc.reverse :: (if rest.isEmpty then [] else splitlinesGo fuel rest [])
    else
      splitlinesGo fuel rest (c :: acc)

/-- Python `s.splitlines()` (note `"".splitlines() = []`). -/
def splitlines (s : Str) : List Str :=
  if s.isEmpty then [] else splitlinesGo s.length s []

/-- The `for i in range(0, len(piece), max_len)` fallback hard split of
src/util.py lines 84–86 and 97–98: consecutive slices of width `maxLen`.
`fuel` bounds the iteration count; for `1 ≤ maxLen` each step consumes
`maxLen ≥ 1` characters, so `fuel = s.length` is never exhausted. -/
def hardSplitGo (maxLen : Nat) : Nat → Str → List Str
  | 0, s => if s.isEmpty then [] else [s]
  | fuel + 1, s =>
    if s.isEmpty then [] else s.take maxLen :: hardSplitGo maxLen fuel (s.drop maxLen)

/-- `[piece[i : i + max_len] for i in range(0, len(piece), max_len)]`. -/
def hardSplit (maxLen : Nat) (s : Str) : List Str := hardSplitGo maxLen s.length s

/-- The two-newline separator of `f"{current}\n\n{piece}"`. -/
def blockSep : Str := ['\n', '\n']

/-- The body of the `for piece in pieces` loop of `split_blocks_to_messages`
(src/util.py lines 78–99), acting on the `(messages, current)` state. -/
def packPiece (maxLen : Nat) (st : List Str × Str) (piece : Str) : List Str × Str :=
  let messages := st.1
  let current := st.2
  if current.isEmpty then
    if piece.length ≤ maxLen then (messages, piece)
    else (messages ++ hardSplit maxLen piece, [])
  else
    let candidate := current ++ blockSep ++ piece
    if candidate.length ≤ maxLen then (messages, candidate)
    else if piece.length ≤ maxLen then (messages ++ [current], piece)
    else (messages ++ [current] ++ hardSplit maxLen piece, [])

/-- The `pieces` computed for one block (src/util.py lines 71–76): the block
as-is when it fits, otherwise its lines, long lines further split. -/
def piecesOfBlock (maxLen : Nat) (cleanBlock : Str) : List Str :=
  if cleanBlock.length ≤ maxLen then [cleanBlock]
  else (splitlines cleanBlock).flatMap (fun line => split_long_line line maxLen)

/-- The body of the `for block in blocks` loop of `split_blocks_to_messages`
(src/util.py lines 66–99). -/
def packBlock (maxLen : Nat) (st : List Str × Str) (block : Str) : List Str × Str :=
  let cleanBlock := strip block
  if cleanBlock.isEmpty then st
  else (piecesOfBlock maxLen cleanBlock).foldl (packPiece maxLen) st

/-- src/util.py `split_blocks_to_messages(blocks, max_len)`. -/
def split_blocks_to_messages (blocks : List Str) (maxLen : Nat) : List Str :=
  let st := blocks.foldl (packBlock maxLen) ([], [])
  if st.2.isEmpty then st.1 else st.1 ++ [st.2]

/-! ## Ledger state (src/state.py) -/

/-- Python `timedelta(hours=h)`, in seconds (datetimes and timedeltas are
modelled as integer numbers of seconds). -/
def hoursToDelta (h : Int) : Int := h * 3600

/-- src/state.py `compute_cutoff_utc(now_utc, last_success_utc, lookback_hours)`. -/
def compute_cutoff_utc (now_utc : Int) (last_success_utc : Option Int)
    (lookback_hours : Int) : Int :=
  let lookback_delta := hoursToDelta (max lookback_hours 1)
  match last_success_utc with
  | none => now_utc - lookback_delta
  | some last =>
    let elapsed := now_utc - last
    let elapsed := if elapsed < 0 then 0 else elapsed
    now_utc - max lookback_delta elapsed

/-- Parsed JSON values, as produced by `json.load` for the ledger file. -/
inductive JVal where
  | jnull : JVal
  | jbool : Bool → JVal
  | jstr : String → JVal
  | jint : Int → JVal
  | jlist : List JVal → JVal
  | jdict : List (String × JVal) → JVal

/-- A Python dict with string keys, as an insertion-ordered association list. -/
abbrev PyDict (α : Type) := List (String × α)

/-- Python `d[k]` lookup (`d.get(k)` semantics: `none` when absent). -/
def dictGet {α : Type} (d : PyDict α) (k : String) : Option α :=
  match d with
  | [] => none
  | (k1, v) :: rest => if k1 = k then some v else dictGet rest k

/-- Python `d[k] = v`: overwrite in place if the key exists, else append
(insertion order preserved, as for Python dicts). -/
def dictSet {α : Type} (d : PyDict α) (k : String) (v : α) : PyDict α :=
  match d with
  | [] => [(k, v)]
  | (k1, v1) :: rest => if k1 = k then (k1, v) :: rest else (k1, v1) :: dictSet rest k v

/-- Python `d.update(r)`. -/
def dictUpdate {α : Type} (d r : PyDict α) : PyDict α :=
  r.foldl (fun acc kv => dictSet acc kv.1 kv.2) d

/-- `isinstance(v, list)` on an optional looked-up value. -/
def isJList : Option JVal → Bool
  | some (JVal.jlist _) => true
  | _ => false

/-- `isinstance(v, dict)` on an optional looked-up value. -/
def isJDict : Option JVal → Bool
  | some (JVal.jdict _) => true
  | _ => false

/-- src/state.py `DEFAULT_STATE`. -/
def DEFAULT_STATE : PyDict JVal :=
  [("sent_ids", JVal.jlist []),
   ("last_success_utc", JVal.jnull),
   ("last_max_published_utc_by_topic", JVal.jdict [])]

/-- src/state.py `ensure_state_shape(raw)`.  Python `if raw:` is false both
for `None` and for an empty dict. -/
def ensure_state_shape (raw : Option (PyDict JVal)) : PyDict JVal :=
  let state := DEFAULT_STATE
  let state :=
    match raw with
    | some r => if r.isEmpty then state else dictUpdate state r
    | none => state
  let state :=
    if isJList (dictGet state "sent_ids") then state
    else dictSet state "sent_ids" (JVal.jlist [])
  let state :=
    if isJDict (dictGet state "last_max_published_utc_by_topic") then state
    else dictSet state "last_max_published_utc_by_topic" (JVal.jdict [])
  state

/-- src/state.py `load_state(path)`, on the already-parsed contents of the
state file: `none` models a missing file (the source then persists and
returns `DEFAULT_STATE`; the write itself is modelled in `runModel`), and
`some raw` a file whose JSON parsed to the top-level object `raw`.  The
`Except` codomain records that the source has no failure path for a
structurally invalid shape: every input is mapped to `Except.ok`. -/
def load_state (contents : Option (PyDict JVal)) : Except String (PyDict JVal) :=
  match contents with
  | none => Except.ok DEFAULT_STATE
  | some raw => Except.ok (ensure_state_shape (some raw))

/-- The in-memory ledger as used by src/main.py: the three fields of the
state dict, typed.  Timestamps are UTC seconds; `to_utc_iso` is modelled as
the identity on these already-UTC values. -/
structure LedgerState where
  sent_ids : List String
  last_success_utc : Option Int
  last_max_published_utc_by_topic : PyDict Int
deriving DecidableEq

/-- The `for arxiv_id in ids` loop of src/state.py `append_sent_ids`
(lines 79–82): append each id that is non-empty (Python truthiness) and not
already present (the `seen` set is membership in the growing list). -/
def appendNewIds (current : List String) (ids : List String) : List String :=
  ids.foldl (fun cur a => if a ≠ "" ∧ ¬ a ∈ cur then cur ++ [a] else cur) current

/-- src/state.py `append_sent_ids(state, ids, max_sent_ids)`, acting on the
`sent_ids` list.  The truncation mirrors Python `current[-max_sent_ids:]`,
which for `max_sent_ids = 0` is `current[0:]` and keeps everything. -/
def append_sent_ids (current : List String) (ids : List String)
    (maxSentIds : Nat) : List String :=
  let cur := appendNewIds current ids
  if maxSentIds < cur.length then
    if maxSentIds = 0 then cur else cur.drop (cur.length - maxSentIds)
  else cur

/-- src/state.py `update_success_metadata(state, now_utc=…,
last_max_published_utc_by_topic=…)`: sets `last_success_utc` and overwrites
each topic entry for which a non-`None` timestamp is supplied. -/
def update_success_metadata (st : LedgerState) (now_utc : Int)
    (byTopic : PyDict (Option Int)) : LedgerState :=
  let topicMap := byTopic.foldl
    (fun m p =>
      match p.2 with
      | some dt => dictSet m p.1 dt
      | none => m)
    st.last_max_published_utc_by_topic
  { sent_ids := st.sent_ids
    last_success_utc := some now_utc
    last_max_published_utc_by_topic := topicMap }

/-! ## Candidate selection (src/filter_rank.py) -/

/-- A candidate entry as consumed by `split_recent_and_educational`: only the
fields that function reads (`educational`, and the id used for bookkeeping). -/
structure Entry where
  arxiv_id : String
  educational : Bool
deriving DecidableEq

/-- Python `random.sample(pool, k)` (k ≤ len(pool)), modelled as a
selection-without-replacement loop: each draw picks the position
`g_i mod (remaining pool size)` and removes it.  The stream `g` of generator
outputs makes explicit the process-global Mersenne Twister state that the
Python call consumes implicitly — `random.sample` is called on the global
`random` module, and `split_recent_and_educational` has no random-source
parameter of its own. -/
def randomSample {α : Type} (g : List Nat) (pool : List α) (k : Nat) : List α :=
  match k, pool with
  | 0, _ => []
  | _ + 1, [] => []
  | k + 1, x :: xs =>
    let j := g.headD 0 % (x :: xs).length
    (x :: xs).get ⟨j, Nat.mod_lt _ (Nat.succ_pos _)⟩ ::
      randomSample g.tail ((x :: xs).eraseIdx j) k

/-- src/filter_rank.py `split_recent_and_educational(candidates, *,
max_recent_items, max_educational_items)`.  The stream `g` models the hidden
global random generator consumed by the `random.sample` call on line 98. -/
def split_recent_and_educational (g : List Nat) (candidates : List Entry)
    (max_recent_items max_educational_items : Int) : List Entry × List Entry :=
  let non_educational := candidates.filter (fun e => !e.educational)
  let educational_pool := candidates.filter (fun e => e.educational)
  let recent_entries := non_educational.take (max max_recent_items 0).toNat
  let educational_limit := (max max_educational_items 0).toNat
  if educational_limit = 0 ∨ educational_pool.isEmpty then
    (recent_entries, [])
  else if educational_pool.length ≤ educational_limit then
    (recent_entries, educational_pool)
  else
    (recent_entries, randomSample g educational_pool educational_limit)

/-! ## The run skeleton (src/main.py) -/

/-- The fresh in-memory ledger corresponding to `DEFAULT_STATE`. -/
def defaultLedger : LedgerState :=
  { sent_ids := [], last_success_utc := none, last_max_published_utc_by_topic := [] }

/-- The outcomes of the effectful collaborators of one `run()` invocation
(src/main.py), fixed up front so the run is a pure function of them:
whether the state file exists (and its contents when it does), the per-topic
outcome of fetch + parse + selection (`none` models a fetch error;
`some ids` the arxiv ids selected for that topic), the per-topic maximum
published timestamp, and whether the transport accepts every message unit. -/
structure RunOracle where
  stateFileExists : Bool
  initialState : LedgerState
  fetchResults : List (Option (List String))
  byTopic : PyDict (Option Int)
  sendOk : Bool
deriving DecidableEq

/-- The `for idx, topic in enumerate(topics)` loop of src/main.py: a fetch
error aborts the run (the exception propagates); otherwise the selected ids
of all topics accumulate in order. -/
def collectFetched : List (Option (List String)) → Option (List String)
  | [] => some []
  | none :: _ => none
  | some ids :: rest => (collectFetched rest).map (fun more => ids ++ more)

/-- Whether a run over the given oracle reaches the final commit:
every per-topic fetch succeeded and the transport accepted every unit. -/
def runSucceeds (o : RunOracle) : Bool :=
  (collectFetched o.fetchResults).isSome && o.sendOk

/-- The ledger committed at the end of a successful run
(src/main.py lines 337–347: `append_sent_ids` then `update_success_metadata`). -/
def runCommit (o : RunOracle) (now_utc : Int) (maxSentIds : Nat) : LedgerState :=
  let state := if o.stateFileExists then o.initialState else defaultLedger
  let sentEntryIds := (collectFetched o.fetchResults).getD []
  update_success_metadata
    { state with sent_ids := append_sent_ids state.sent_ids sentEntryIds maxSentIds }
    now_utc o.byTopic

/-- The commit-ordering skeleton of src/main.py `run()` (lines 164–358),
as a pure function of a `RunOracle`.  Returns the run outcome together with
the trace of writes to the persisted ledger file, in order: `load_state`
writes `DEFAULT_STATE` when the file does not exist (src/state.py
lines 32–35); `save_state` writes the committed ledger once, only after
`send_messages` returned (src/main.py lines 334–348).  Fetching, parsing,
rendering and packing are pure or abstracted into the oracle; packing
(`split_blocks_to_messages`) is total, so fetch and transport are the only
failure points between load and commit. -/
def runModel (o : RunOracle) (now_utc : Int) (maxSentIds : Nat)
    (lookback_hours : Int) : Except Unit Nat × List LedgerState :=
  let state := if o.stateFileExists then o.initialState else defaultLedger
  let writes : List LedgerState := if o.stateFileExists then [] else [defaultLedger]
  let _state_cutoff_utc :=
    compute_cutoff_utc now_utc state.last_success_utc lookback_hours
  match collectFetched o.fetchResults with
  | none => (Except.error (), writes)
  | some sentEntryIds =>
    if o.sendOk then
      let state1 :=
        { state with sent_ids := append_sent_ids state.sent_ids sentEntryIds maxSentIds }
      let state2 := update_success_metadata state1 now_utc o.byTopic
      (Except.ok 0, writes ++ [state2])
    else (Except.error (), writes)


/-! ## Concrete inputs used by the claim theorems -/

/-- The block `"short"`. -/
def shortStr : Str := ['s', 'h', 'o', 'r', 't']

/-- The block `"x" * 2500`. -/
def x2500 : Str := List.replicate 2500 'x'

/-- A persisted ledger whose `sent_ids` field is not a list. -/
def corruptRaw : PyDict JVal := [("sent_ids", JVal.jint 42)]

/-- A ledger whose topic `"t"` was last seen published at time 100. -/
def c5state : LedgerState :=
  { sent_ids := [], last_success_utc := none,
    last_max_published_utc_by_topic := [("t", 100)] }

/-- Two educational candidates for the concrete sampling theorems. -/
def eduA : Entry := { arxiv_id := "a", educational := true }

/-- See `eduA`. -/
def eduB : Entry := { arxiv_id := "b", educational := true }

/-- See `eduA`. -/
def eduC : Entry := { arxiv_id := "c", educational := true }

/-- A first run (no state file yet) whose single topic fetch fails. -/
def c9oracle : RunOracle :=
  { stateFileExists := false, initialState := defaultLedger,
    fetchResults := [none], byTopic := [], sendOk := true }

end ArxivDigest
namespace ArxivDigest

/-! ## Lemmas: whitespace-erased content -/

theorem nonWs_append (s t : Str) : nonWs (s ++ t) = nonWs s ++ nonWs t := by
  simp [nonWs]

theorem nonWs_nil : nonWs ([] : Str) = [] := rfl

theorem nonWs_dropWhile (s : Str) : nonWs (s.dropWhile pyIsSpace) = nonWs s := by
  induction s with
  | nil => rfl
  | cons c rest ih =>
    by_cases h : pyIsSpace c
    · simp [List.dropWhile, nonWs, h] at ih ⊢
      exact ih
    · simp [List.dropWhile, h]

theorem nonWs_lstrip (s : Str) : nonWs (lstrip s) = nonWs s :=
  nonWs_dropWhile s

theorem nonWs_reverse (s : Str) : nonWs s.reverse = (nonWs s).reverse := by
  simp [nonWs, List.filter_reverse]

theorem nonWs_rstrip (s : Str) : nonWs (rstrip s) = nonWs s := by
  have h := nonWs_dropWhile s.reverse
  rw [rstrip, nonWs_reverse, h, nonWs_reverse, List.reverse_reverse]

theorem nonWs_strip (s : Str) : nonWs (strip s) = nonWs s := by
  rw [strip, nonWs_lstrip, nonWs_rstrip]

theorem nonWs_take_drop (n : Nat) (s : Str) :
    nonWs (s.take n) ++ nonWs (s.drop n) = nonWs s := by
  rw [← nonWs_append, List.take_append_drop]

theorem nonWs_eq_nil_of_strip_eq_nil {s : Str} (h : strip s = []) : nonWs s = [] := by
  rw [← nonWs_strip, h]; rfl

theorem length_dropWhile_le (p : Char → Bool) (s : Str) :
    (s.dropWhile p).length ≤ s.length := by
  induction s with
  | nil => exact Nat.le_refl _
  | cons c rest ih =>
    by_cases h : p c
    · simp only [List.dropWhile, h]
      exact Nat.le_succ_of_le ih
    · simp [List.dropWhile, h]

theorem length_rstrip_le (s : Str) : (rstrip s).length ≤ s.length := by
  have h := length_dropWhile_le pyIsSpace s.reverse
  simp only [rstrip, List.length_reverse] at h ⊢
  exact h

theorem length_lstrip_le (s : Str) : (lstrip s).length ≤ s.length :=
  length_dropWhile_le _ _

/-! ## Lemmas: rfind and the split_long_line loop -/

theorem rfindCharGo_lt (t : Str) (i : Nat) (best ub : Int) (hb : best < ub)
    (ht : (i : Int) + t.length ≤ ub) : rfindCharGo i best t < ub := by
  induction t generalizing i best with
  | nil => exact hb
  | cons c rest ih =>
    simp only [rfindCharGo]
    apply ih
    · by_cases h : c = ' ' <;> simp [h] <;> simp [List.length_cons] at ht <;> omega
    · simp [List.length_cons] at ht
      push_cast
      omega

theorem rfindSpaceBefore_lt (s : Str) (stop : Nat) :
    rfindSpaceBefore s stop < (stop : Int) := by
  apply rfindCharGo_lt
  · omega
  · have := List.length_take_le stop s
    push_cast
    omega

theorem splitIndex_le (maxLen : Nat) (s : Str) : splitIndex maxLen s ≤ maxLen := by
  rw [splitIndex]
  split
  · exact Nat.le_refl _
  · have := rfindSpaceBefore_lt s maxLen
    omega

theorem splitIndex_pos (maxLen : Nat) (h : 1 ≤ maxLen) (s : Str) :
    1 ≤ splitIndex maxLen s := by
  rw [splitIndex]
  split
  · exact h
  · next hneg => omega

theorem splitStep_le (maxLen : Nat) (s : Str) : splitStep maxLen s ≤ maxLen := by
  rw [splitStep]
  split
  · exact Nat.le_refl _
  · exact splitIndex_le maxLen s

theorem splitStep_pos (maxLen : Nat) (h : 1 ≤ maxLen) (s : Str) :
    1 ≤ splitStep maxLen s := by
  rw [splitStep]
  split
  · exact h
  · exact splitIndex_pos maxLen h s

theorem splitChunk_length_le (maxLen : Nat) (s : Str) :
    (splitChunk maxLen s).length ≤ maxLen := by
  rw [splitChunk]
  split
  · have := s.length_take maxLen
    omega
  · have h1 : (chunkAt maxLen s).length ≤ (s.take (splitIndex maxLen s)).length :=
      length_rstrip_le _
    have h2 := s.length_take (splitIndex maxLen s)
    have h3 := splitIndex_le maxLen s
    omega

theorem splitRest_length_le (maxLen : Nat) (h : 1 ≤ maxLen) (s : Str)
    (hs : maxLen < s.length) : (splitRest maxLen s).length + 1 ≤ s.length := by
  have h1 : (splitRest maxLen s).length ≤ (s.drop (splitStep maxLen s)).length :=
    length_lstrip_le _
  have h2 := s.length_drop (splitStep maxLen s)
  have h3 := splitStep_pos maxLen h s
  omega

/-- The content of one loop iteration: the emitted chunk together with the
new remainder carry exactly the non-whitespace content of the old remainder. -/
theorem nonWs_splitChunk_splitRest (maxLen : Nat) (s : Str) :
    nonWs (splitChunk maxLen s) ++ nonWs (splitRest maxLen s) = nonWs s := by
  simp only [splitChunk, splitRest, splitStep]
  split
  · rw [nonWs_lstrip, nonWs_take_drop]
  · rw [nonWs_lstrip, chunkAt, nonWs_rstrip, nonWs_take_drop]

end ArxivDigest

namespace ArxivDigest

theorem nonWs_flatten_splitLongLineGo (maxLen fuel : Nat) (s : Str) :
    nonWs (splitLongLineGo maxLen fuel s).flatten = nonWs s := by
  induction fuel generalizing s with
  | zero =>
    simp only [splitLongLineGo]
    split
    · next h =>
      rw [List.isEmpty_iff] at h
      simp [h]
    · simp
  | succ fuel ih =>
    simp only [splitLongLineGo]
    split
    · split
      · next h =>
        rw [List.isEmpty_iff] at h
        simp [h]
      · simp
    · rw [List.flatten_cons, nonWs_append, ih, nonWs_splitChunk_splitRest]

theorem mem_splitLongLineGo_length (maxLen fuel : Nat) (h1 : 1 ≤ maxLen) (s : Str)
    (hfuel : s.length ≤ fuel + maxLen) :
    ∀ c ∈ splitLongLineGo maxLen fuel s, c.length ≤ maxLen := by
  induction fuel generalizing s with
  | zero =>
    simp only [splitLongLineGo]
    split
    · simp
    · intro c hc
      simp only [List.mem_singleton] at hc
      subst hc
      omega
  | succ fuel ih =>
    simp only [splitLongLineGo]
    split
    · next hle =>
      split
      · simp
      · intro c hc
        simp only [List.mem_singleton] at hc
        subst hc
        exact hle
    · next hgt =>
      intro c hc
      simp only [List.mem_cons] at hc
      rcases hc with rfl | hc
      · exact splitChunk_length_le maxLen s
      · refine ih (splitRest maxLen s) ?_ c hc
        have := splitRest_length_le maxLen h1 s (by omega)
        omega

theorem nonWs_flatten_split_long_line (line : Str) (maxLen : Nat) :
    nonWs (split_long_line line maxLen).flatten = nonWs line := by
  rw [split_long_line]
  split
  · simp
  · exact nonWs_flatten_splitLongLineGo maxLen line.length line

theorem mem_split_long_line_length (line : Str) (maxLen : Nat) (h1 : 1 ≤ maxLen) :
    ∀ c ∈ split_long_line line maxLen, c.length ≤ maxLen := by
  rw [split_long_line]
  split
  · next hle =>
    intro c hc
    simp only [List.mem_singleton] at hc
    subst hc
    exact hle
  · intro c hc
    exact mem_splitLongLineGo_length maxLen line.length h1 line (by omega) c hc

end ArxivDigest

namespace ArxivDigest

/-! ## Lemmas: splitlines -/

theorem nonWs_cons_ws (c : Char) (s : Str) (h : pyIsSpace c = true) :
    nonWs (c :: s) = nonWs s := by
  simp [nonWs, h]

theorem nonWs_append_cons_ws (t s : Str) (c : Char) (h : pyIsSpace c = true) :
    nonWs (t ++ c :: s) = nonWs t ++ nonWs s := by
  rw [nonWs_append, nonWs_cons_ws c s h]

theorem nonWs_flatten_splitlinesGo (fuel : Nat) (s acc : Str) :
    nonWs (splitlinesGo fuel s acc).flatten = nonWs (acc.reverse ++ s) := by
  induction fuel generalizing s acc with
  | zero =>
    match s with
    | [] => simp [splitlinesGo]
    | c :: rest => simp [splitlinesGo]
  | succ fuel ih =>
    match s with
    | [] => simp [splitlinesGo]
    | c :: rest =>
      simp only [splitlinesGo]
      split
      · next hpair =>
        obtain ⟨hc, hh⟩ := hpair
        subst hc
        cases rest with
        | nil => simp at hh
        | cons r0 rtail =>
          simp only [List.head?_cons, Option.some.injEq] at hh
          subst hh
          simp only [List.tail_cons]
          have hr : pyIsSpace '\r' = true := by rfl
          have hn : pyIsSpace '\n' = true := by rfl
          rw [nonWs_append_cons_ws _ _ _ hr, nonWs_cons_ws _ _ hn]
          split
          · next hemp =>
            rw [List.isEmpty_iff] at hemp
            subst hemp
            simp [nonWs]
          · rw [List.flatten_cons, nonWs_append, ih rtail []]
            simp
      · next hne =>
        split
        · next hc =>
          have hcw : pyIsSpace c = true := by
            rcases hc with rfl | rfl <;> rfl
          rw [nonWs_append_cons_ws _ _ _ hcw]
          split
          · next hemp =>
            rw [List.isEmpty_iff] at hemp
            subst hemp
            simp [nonWs]
          · rw [List.flatten_cons, nonWs_append, ih rest []]
            simp
        · rw [ih rest (c :: acc)]
          simp

theorem nonWs_flatten_splitlines (s : Str) :
    nonWs (splitlines s).flatten = nonWs s := by
  rw [splitlines]
  split
  · next h =>
    rw [List.isEmpty_iff] at h
    subst h
    rfl
  · rw [nonWs_flatten_splitlinesGo]
    simp

/-! ## Lemmas: the hard split -/

theorem flatten_hardSplitGo (maxLen fuel : Nat) (s : Str) :
    (hardSplitGo maxLen fuel s).flatten = s := by
  induction fuel generalizing s with
  | zero =>
    simp only [hardSplitGo]
    split
    · next h => rw [List.isEmpty_iff] at h; simp [h]
    · simp
  | succ fuel ih =>
    simp only [hardSplitGo]
    split
    · next h => rw [List.isEmpty_iff] at h; simp [h]
    · rw [List.flatten_cons, ih, List.take_append_drop]

theorem flatten_hardSplit (maxLen : Nat) (s : Str) :
    (hardSplit maxLen s).flatten = s :=
  flatten_hardSplitGo maxLen s.length s

theorem mem_hardSplitGo_length (maxLen fuel : Nat) (h1 : 1 ≤ maxLen) (s : Str)
    (hfuel : s.length ≤ fuel + maxLen) :
    ∀ c ∈ hardSplitGo maxLen fuel s, c.length ≤ maxLen := by
  induction fuel generalizing s with
  | zero =>
    simp only [hardSplitGo]
    split
    · simp
    · intro c hc
      simp only [List.mem_singleton] at hc
      subst hc
      omega
  | succ fuel ih =>
    simp only [hardSplitGo]
    split
    · simp
    · intro c hc
      simp only [List.mem_cons] at hc
      rcases hc with rfl | hc
      · have := s.length_take maxLen
        omega
      · refine ih (s.drop maxLen) ?_ c hc
        have := s.length_drop maxLen
        omega

theorem mem_hardSplit_length (maxLen : Nat) (h1 : 1 ≤ maxLen) (s : Str) :
    ∀ c ∈ hardSplit maxLen s, c.length ≤ maxLen :=
  mem_hardSplitGo_length maxLen s.length h1 s (by omega)

theorem mem_hardSplitGo_ne_nil (maxLen fuel : Nat) (h1 : 1 ≤ maxLen) (s : Str) :
    ∀ c ∈ hardSplitGo maxLen fuel s, c ≠ [] := by
  induction fuel generalizing s with
  | zero =>
    simp only [hardSplitGo]
    split
    · simp
    · next h =>
      intro c hc
      simp only [List.mem_singleton] at hc
      subst hc
      simpa [List.isEmpty_iff] using h
  | succ fuel ih =>
    simp only [hardSplitGo]
    split
    · simp
    · next h =>
      intro c hc
      simp only [List.mem_cons] at hc
      rcases hc with rfl | hc
      · have hs : s.length ≠ 0 := by
          simpa [List.isEmpty_iff, List.length_eq_zero] using h
        intro htake
        have := congrArg List.length htake
        simp only [List.length_take, List.length_nil] at this
        omega
      · exact ih (s.drop maxLen) c hc

theorem mem_hardSplit_ne_nil (maxLen : Nat) (h1 : 1 ≤ maxLen) (s : Str) :
    ∀ c ∈ hardSplit maxLen s, c ≠ [] :=
  mem_hardSplitGo_ne_nil maxLen s.length h1 s

end ArxivDigest

namespace ArxivDigest

/-! ## Lemmas: the packing fold -/

theorem packPiece_content (maxLen : Nat) (st : List Str × Str) (piece : Str) :
    nonWs ((packPiece maxLen st piece).1.flatten ++ (packPiece maxLen st piece).2) =
      nonWs (st.1.flatten ++ st.2) ++ nonWs piece := by
  obtain ⟨msgs, cur⟩ := st
  simp only [packPiece]
  split
  · next hemp =>
    rw [List.isEmpty_iff] at hemp
    subst hemp
    split
    · simp [nonWs_append]
    · simp [nonWs_append, flatten_hardSplit, nonWs]
  · split
    · simp [nonWs_append, blockSep, nonWs, pyIsSpace]
    · split
      · simp [nonWs_append, nonWs]
      · simp [nonWs_append, flatten_hardSplit, nonWs]

theorem packPiece_length (maxLen : Nat) (h1 : 1 ≤ maxLen) (st : List Str × Str)
    (piece : Str) (hmsgs : ∀ m ∈ st.1, m.length ≤ maxLen)
    (hcur : st.2.length ≤ maxLen) :
    (∀ m ∈ (packPiece maxLen st piece).1, m.length ≤ maxLen) ∧
      (packPiece maxLen st piece).2.length ≤ maxLen := by
  obtain ⟨msgs, cur⟩ := st
  simp only [packPiece]
  split
  · split
    · next hle => exact ⟨hmsgs, hle⟩
    · refine ⟨?_, by simp⟩
      intro m hm
      rw [List.mem_append] at hm
      rcases hm with hm | hm
      · exact hmsgs m hm
      · exact mem_hardSplit_length maxLen h1 piece m hm
  · split
    · next hle => exact ⟨hmsgs, hle⟩
    · split
      · next hle =>
        refine ⟨?_, hle⟩
        intro m hm
        rw [List.mem_append] at hm
        rcases hm with hm | hm
        · exact hmsgs m hm
        · simp only [List.mem_singleton] at hm
          subst hm
          exact hcur
      · refine ⟨?_, by simp⟩
        intro m hm
        simp only [List.append_assoc, List.mem_append, List.mem_singleton] at hm
        rcases hm with hm | rfl | hm
        · exact hmsgs m hm
        · exact hcur
        · exact mem_hardSplit_length maxLen h1 piece m hm

theorem packPiece_ne_nil (maxLen : Nat) (h1 : 1 ≤ maxLen) (st : List Str × Str)
    (piece : Str) (hmsgs : ∀ m ∈ st.1, m ≠ []) :
    ∀ m ∈ (packPiece maxLen st piece).1, m ≠ [] := by
  obtain ⟨msgs, cur⟩ := st
  simp only [packPiece]
  split
  · split
    · exact hmsgs
    · intro m hm
      rw [List.mem_append] at hm
      rcases hm with hm | hm
      · exact hmsgs m hm
      · exact mem_hardSplit_ne_nil maxLen h1 piece m hm
  · next hemp =>
    have hcur : cur ≠ [] := by simpa [List.isEmpty_iff] using hemp
    split
    · exact hmsgs
    · split
      · intro m hm
        rw [List.mem_append] at hm
        rcases hm with hm | hm
        · exact hmsgs m hm
        · simp only [List.mem_singleton] at hm
          subst hm
          exact hcur
      · intro m hm
        simp only [List.append_assoc, List.mem_append, List.mem_singleton] at hm
        rcases hm with hm | rfl | hm
        · exact hmsgs m hm
        · exact hcur
        · exact mem_hardSplit_ne_nil maxLen h1 piece m hm

theorem foldl_packPiece_content (maxLen : Nat) (pieces : List Str)
    (st : List Str × Str) :
    nonWs ((pieces.foldl (packPiece maxLen) st).1.flatten ++
        (pieces.foldl (packPiece maxLen) st).2) =
      nonWs (st.1.flatten ++ st.2) ++ nonWs pieces.flatten := by
  induction pieces generalizing st with
  | nil => simp [nonWs]
  | cons p rest ih =>
    rw [List.foldl_cons, ih, packPiece_content, List.flatten_cons, nonWs_append,
      List.append_assoc, nonWs_append]

theorem foldl_packPiece_length (maxLen : Nat) (h1 : 1 ≤ maxLen) (pieces : List Str)
    (st : List Str × Str) (hmsgs : ∀ m ∈ st.1, m.length ≤ maxLen)
    (hcur : st.2.length ≤ maxLen) :
    (∀ m ∈ (pieces.foldl (packPiece maxLen) st).1, m.length ≤ maxLen) ∧
      (pieces.foldl (packPiece maxLen) st).2.length ≤ maxLen := by
  induction pieces generalizing st with
  | nil => exact ⟨hmsgs, hcur⟩
  | cons p rest ih =>
    rw [List.foldl_cons]
    obtain ⟨h1', h2'⟩ := packPiece_length maxLen h1 st p hmsgs hcur
    exact ih (packPiece maxLen st p) h1' h2'

theorem foldl_packPiece_ne_nil (maxLen : Nat) (h1 : 1 ≤ maxLen) (pieces : List Str)
    (st : List Str × Str) (hmsgs : ∀ m ∈ st.1, m ≠ []) :
    ∀ m ∈ (pieces.foldl (packPiece maxLen) st).1, m ≠ [] := by
  induction pieces generalizing st with
  | nil => exact hmsgs
  | cons p rest ih =>
    rw [List.foldl_cons]
    exact ih (packPiece maxLen st p) (packPiece_ne_nil maxLen h1 st p hmsgs)

theorem nonWs_flatten_piecesOfBlock (maxLen : Nat) (cb : Str) :
    nonWs (piecesOfBlock maxLen cb).flatten = nonWs cb := by
  rw [piecesOfBlock]
  split
  · simp
  · have h : ∀ lines : List Str,
        nonWs (lines.flatMap (fun line => split_long_line line maxLen)).flatten =
          nonWs lines.flatten := by
      intro lines
      induction lines with
      | nil => rfl
      | cons l rest ih =>
        rw [List.flatMap_cons, List.flatten_append, nonWs_append, ih,
          nonWs_flatten_split_long_line, List.flatten_cons, nonWs_append]
    rw [h, nonWs_flatten_splitlines]

theorem packBlock_content (maxLen : Nat) (st : List Str × Str) (block : Str) :
    nonWs ((packBlock maxLen st block).1.flatten ++ (packBlock maxLen st block).2) =
      nonWs (st.1.flatten ++ st.2) ++ nonWs block := by
  rw [packBlock]
  split
  · next hemp =>
    rw [List.isEmpty_iff] at hemp
    rw [nonWs_eq_nil_of_strip_eq_nil hemp, List.append_nil]
  · rw [foldl_packPiece_content, nonWs_flatten_piecesOfBlock, nonWs_strip]

theorem packBlock_length (maxLen : Nat) (h1 : 1 ≤ maxLen) (st : List Str × Str)
    (block : Str) (hmsgs : ∀ m ∈ st.1, m.length ≤ maxLen)
    (hcur : st.2.length ≤ maxLen) :
    (∀ m ∈ (packBlock maxLen st block).1, m.length ≤ maxLen) ∧
      (packBlock maxLen st block).2.length ≤ maxLen := by
  rw [packBlock]
  split
  · exact ⟨hmsgs, hcur⟩
  · exact foldl_packPiece_length maxLen h1 _ st hmsgs hcur

theorem packBlock_ne_nil (maxLen : Nat) (h1 : 1 ≤ maxLen) (st : List Str × Str)
    (block : Str) (hmsgs : ∀ m ∈ st.1, m ≠ []) :
    ∀ m ∈ (packBlock maxLen st block).1, m ≠ [] := by
  rw [packBlock]
  split
  · exact hmsgs
  · exact foldl_packPiece_ne_nil maxLen h1 _ st hmsgs

theorem foldl_packBlock_content (maxLen : Nat) (blocks : List Str)
    (st : List Str × Str) :
    nonWs ((blocks.foldl (packBlock maxLen) st).1.flatten ++
        (blocks.foldl (packBlock maxLen) st).2) =
      nonWs (st.1.flatten ++ st.2) ++ (blocks.map nonWs).flatten := by
  induction blocks generalizing st with
  | nil => simp
  | cons b rest ih =>
    rw [List.foldl_cons, ih, packBlock_content, List.map_cons, List.flatten_cons,
      List.append_assoc]

theorem foldl_packBlock_length (maxLen : Nat) (h1 : 1 ≤ maxLen) (blocks : List Str)
    (st : List Str × Str) (hmsgs : ∀ m ∈ st.1, m.length ≤ maxLen)
    (hcur : st.2.length ≤ maxLen) :
    (∀ m ∈ (blocks.foldl (packBlock maxLen) st).1, m.length ≤ maxLen) ∧
      (blocks.foldl (packBlock maxLen) st).2.length ≤ maxLen := by
  induction blocks generalizing st with
  | nil => exact ⟨hmsgs, hcur⟩
  | cons b rest ih =>
    rw [List.foldl_cons]
    obtain ⟨h1', h2'⟩ := packBlock_length maxLen h1 st b hmsgs hcur
    exact ih (packBlock maxLen st b) h1' h2'

theorem foldl_packBlock_ne_nil (maxLen : Nat) (h1 : 1 ≤ maxLen) (blocks : List Str)
    (st : List Str × Str) (hmsgs : ∀ m ∈ st.1, m ≠ []) :
    ∀ m ∈ (blocks.foldl (packBlock maxLen) st).1, m ≠ [] := by
  induction blocks generalizing st with
  | nil => exact hmsgs
  | cons b rest ih =>
    rw [List.foldl_cons]
    exact ih (packBlock maxLen st b) (packBlock_ne_nil maxLen h1 st b hmsgs)

end ArxivDigest

namespace ArxivDigest

/-- C2.  For every finite list of blocks and every positive `max_len`:
every element of `split_blocks_to_messages blocks max_len` has length at most
`max_len`, and concatenating all output units in order, ignoring whitespace,
reproduces exactly the non-whitespace content of the input blocks in original
order — no content lost, none reordered. -/
theorem c2_pack_length_and_roundtrip (blocks : List Str) (maxLen : Nat)
    (h : 1 ≤ maxLen) :
    (∀ m ∈ split_blocks_to_messages blocks maxLen, m.length ≤ maxLen) ∧
      nonWs (split_blocks_to_messages blocks maxLen).flatten =
        (blocks.map nonWs).flatten := by
  have hcontent := foldl_packBlock_content maxLen blocks ([], [])
  have hlen := foldl_packBlock_length maxLen h blocks ([], [])
    (by intro m hm; simp at hm) (by simp)
  simp only [List.flatten_nil, List.append_nil, nonWs_nil, List.nil_append]
    at hcontent
  rw [split_blocks_to_messages]
  constructor
  · intro m hm
    split at hm
    · exact hlen.1 m hm
    · rw [List.mem_append, List.mem_singleton] at hm
      rcases hm with hm | rfl
      · exact hlen.1 m hm
      · exact hlen.2
  · split
    · next hemp =>
      rw [List.isEmpty_iff] at hemp
      rw [← hcontent, hemp, List.append_nil]
    · rw [← hcontent, List.flatten_append, List.flatten_cons, List.flatten_nil,
        List.append_nil]

/-- Witness for C2 at a concrete input. -/
theorem c2_pack_length_and_roundtrip_witness :
    (∀ m ∈ split_blocks_to_messages [['h', 'i', ' ', 'a'], [' '], ['y', 'o']] 3,
        m.length ≤ 3) ∧
      nonWs (split_blocks_to_messages [['h', 'i', ' ', 'a'], [' '], ['y', 'o']] 3).flatten =
        ([['h', 'i', ' ', 'a'], [' '], ['y', 'o']].map nonWs).flatten :=
  c2_pack_length_and_roundtrip [['h', 'i', ' ', 'a'], [' '], ['y', 'o']] 3 (by decide)

/-- C10.  For every finite list of blocks and every `max_len ≥ 1`, every unit
produced by `split_blocks_to_messages` is a non-empty string: blank or
whitespace-only blocks and empty interior lines never yield an empty output
message (so the downstream sender `DiscordWebhookClient.send`, which silently
skips empty content, is never handed one). -/
theorem c10_messages_nonempty (blocks : List Str) (maxLen : Nat)
    (h : 1 ≤ maxLen) :
    ∀ m ∈ split_blocks_to_messages blocks maxLen, m ≠ [] := by
  have hne := foldl_packBlock_ne_nil maxLen h blocks ([], [])
    (by intro m hm; simp at hm)
  rw [split_blocks_to_messages]
  intro m hm
  split at hm
  · exact hne m hm
  · next hemp =>
    rw [List.mem_append, List.mem_singleton] at hm
    rcases hm with hm | rfl
    · exact hne m hm
    · simpa [List.isEmpty_iff] using hemp

/-- Witness for C10 at a concrete input including a whitespace-only block and
an empty interior line: the first produced message is non-empty. -/
theorem c10_messages_nonempty_witness :
    (['a'] : Str) ≠ [] :=
  c10_messages_nonempty [[' ', '\t'], ['a', '\n', '\n', 'b', 'x']] 1 (by decide)
    ['a'] (by decide)

/-! ## Lemmas: packing a long run of a single repeated character (C7) -/

theorem dropWhile_replicate_of_not (p : Char → Bool) (a : Char) (h : p a = false)
    (n : Nat) : (List.replicate n a).dropWhile p = List.replicate n a := by
  cases n with
  | zero => rfl
  | succ n => simp [List.replicate_succ, List.dropWhile_cons, h]

theorem lstrip_replicate (a : Char) (h : pyIsSpace a = false) (n : Nat) :
    lstrip (List.replicate n a) = List.replicate n a :=
  dropWhile_replicate_of_not pyIsSpace a h n

theorem rstrip_replicate (a : Char) (h : pyIsSpace a = false) (n : Nat) :
    rstrip (List.replicate n a) = List.replicate n a := by
  rw [rstrip, List.reverse_replicate, dropWhile_replicate_of_not pyIsSpace a h n,
    List.reverse_replicate]

theorem strip_replicate (a : Char) (h : pyIsSpace a = false) (n : Nat) :
    strip (List.replicate n a) = List.replicate n a := by
  rw [strip, rstrip_replicate a h n, lstrip_replicate a h n]

theorem rfindCharGo_no_space (t : Str) (i : Nat) (best : Int)
    (h : ∀ c ∈ t, c ≠ ' ') : rfindCharGo i best t = best := by
  induction t generalizing i with
  | nil => rfl
  | cons c rest ih =>
    have hc : c ≠ ' ' := h c (List.mem_cons_self c rest)
    simp only [rfindCharGo, if_neg hc]
    exact ih (i + 1) (fun d hd => h d (List.mem_cons_of_mem c hd))

theorem rfindSpaceBefore_no_space (s : Str) (stop : Nat)
    (h : ∀ c ∈ s, c ≠ ' ') : rfindSpaceBefore s stop = -1 :=
  rfindCharGo_no_space (s.take stop) 0 (-1)
    (fun c hc => h c (List.take_subset stop s hc))

theorem splitlinesGo_no_newline (fuel : Nat) (s acc : Str)
    (h : ∀ c ∈ s, c ≠ '\n' ∧ c ≠ '\r') :
    splitlinesGo fuel s acc = [acc.reverse ++ s] := by
  induction fuel generalizing s acc with
  | zero =>
    match s with
    | [] => simp [splitlinesGo]
    | c :: rest => simp [splitlinesGo]
  | succ fuel ih =>
    match s with
    | [] => simp [splitlinesGo]
    | c :: rest =>
      obtain ⟨hn, hr⟩ := h c (List.mem_cons_self c rest)
      have hrest : ∀ d ∈ rest, d ≠ '\n' ∧ d ≠ '\r' :=
        fun d hd => h d (List.mem_cons_of_mem c hd)
      simp only [splitlinesGo]
      rw [if_neg (by intro hpair; exact hr hpair.1),
        if_neg (by intro hor; rcases hor with h1 | h1; exact hn h1; exact hr h1),
        ih rest (c :: acc) hrest]
      simp

theorem splitlines_replicate (a : Char) (hn : a ≠ '\n') (hr : a ≠ '\r')
    (n : Nat) (hpos : 1 ≤ n) :
    splitlines (List.replicate n a) = [List.replicate n a] := by
  rw [splitlines]
  rw [if_neg (by simp [List.isEmpty_iff, ← List.length_eq_zero, List.length_replicate]; omega)]
  rw [splitlinesGo_no_newline _ _ _
    (fun c hc => by
      rw [List.eq_of_mem_replicate hc]
      exact ⟨hn, hr⟩)]
  simp

theorem splitLongLineGo_of_le (maxLen fuel : Nat) (s : Str)
    (h : s.length ≤ maxLen) :
    splitLongLineGo maxLen fuel s = if s.isEmpty then [] else [s] := by
  cases fuel with
  | zero => rfl
  | succ fuel => simp [splitLongLineGo, h]

theorem splitLongLineGo_succ_of_gt (maxLen fuel : Nat) (s : Str)
    (h : maxLen < s.length) :
    splitLongLineGo maxLen (fuel + 1) s =
      splitChunk maxLen s :: splitLongLineGo maxLen fuel (splitRest maxLen s) := by
  simp [splitLongLineGo, Nat.not_le.mpr h]

theorem split_long_line_replicate (a : Char) (hsp : a ≠ ' ')
    (hws : pyIsSpace a = false) (n maxLen : Nat) (h1 : maxLen < n)
    (h2 : n - maxLen ≤ maxLen) :
    split_long_line (List.replicate n a) maxLen =
      [List.replicate maxLen a, List.replicate (n - maxLen) a] := by
  have hmaxpos : 1 ≤ maxLen := by omega
  have hnot : ∀ c ∈ List.replicate n a, c ≠ ' ' := by
    intro c hc
    rw [List.eq_of_mem_replicate hc]
    exact hsp
  have hidx : splitIndex maxLen (List.replicate n a) = maxLen := by
    rw [splitIndex, rfindSpaceBefore_no_space _ _ hnot, if_pos (by omega)]
  have hchunkAt : chunkAt maxLen (List.replicate n a) = List.replicate maxLen a := by
    rw [chunkAt, hidx, List.take_replicate, Nat.min_eq_left (by omega),
      rstrip_replicate a hws]
  have hchunkne : (List.replicate maxLen a).isEmpty = false := by
    simp [List.isEmpty_iff, ← List.length_eq_zero, List.length_replicate]
    omega
  have hchunk : splitChunk maxLen (List.replicate n a) = List.replicate maxLen a := by
    rw [splitChunk, hchunkAt, hchunkne]
    simp
  have hstep : splitStep maxLen (List.replicate n a) = maxLen := by
    rw [splitStep, hchunkAt, hchunkne]
    simp [hidx]
  have hrest : splitRest maxLen (List.replicate n a) = List.replicate (n - maxLen) a := by
    rw [splitRest, hstep, List.drop_replicate, lstrip_replicate a hws]
  obtain ⟨fuel, hfuel⟩ : ∃ fuel, n = fuel + 1 := ⟨n - 1, by omega⟩
  rw [split_long_line, if_neg (by simp [List.length_replicate]; omega)]
  calc splitLongLineGo maxLen (List.replicate n a).length (List.replicate n a)
      = splitLongLineGo maxLen (fuel + 1) (List.replicate n a) := by
        rw [List.length_replicate, hfuel]
    _ = splitChunk maxLen (List.replicate n a) ::
          splitLongLineGo maxLen fuel (splitRest maxLen (List.replicate n a)) := by
        rw [splitLongLineGo_succ_of_gt maxLen fuel _ (by simp [List.length_replicate]; omega)]
    _ = [List.replicate maxLen a, List.replicate (n - maxLen) a] := by
        rw [hchunk, hrest, splitLongLineGo_of_le maxLen fuel _
          (by simp [List.length_replicate]; omega)]
        rw [if_neg (by simp [List.isEmpty_iff, ← List.length_eq_zero, List.length_replicate]; omega)]

end ArxivDigest

namespace ArxivDigest

theorem replicate_x_not_empty (n : Nat) (h : 1 ≤ n) :
    (List.replicate n 'x').isEmpty = false := by
  simp [List.isEmpty_iff, ← List.length_eq_zero, List.length_replicate]
  omega

theorem pieces_x2500 : piecesOfBlock 2000 x2500 = [List.replicate 2000 'x', List.replicate 500 'x'] := by
  rw [piecesOfBlock, x2500, if_neg (by simp only [List.length_replicate]; omega)]
  rw [splitlines_replicate 'x' (by decide) (by decide) 2500 (by omega)]
  rw [List.flatMap_cons, List.flatMap_nil, List.append_nil]
  have h := split_long_line_replicate 'x' (by decide) (by decide) 2500 2000
    (by omega) (by omega)
  rw [h]

theorem packBlock_short : packBlock 2000 ([], []) shortStr = ([], shortStr) := by decide

theorem packBlock_x2500 :
    packBlock 2000 ([], shortStr) x2500 =
      ([shortStr, List.replicate 2000 'x'], List.replicate 500 'x') := by
  rw [packBlock]
  have hstrip : strip x2500 = x2500 := strip_replicate 'x' (by decide) 2500
  rw [hstrip, if_neg (by rw [x2500, replicate_x_not_empty 2500 (by omega)]; simp)]
  rw [pieces_x2500]
  rw [List.foldl_cons, List.foldl_cons, List.foldl_nil]
  have step1 : packPiece 2000 ([], shortStr) (List.replicate 2000 'x') =
      ([shortStr], List.replicate 2000 'x') := by
    simp only [packPiece]
    rw [if_neg (by simp [shortStr])]
    rw [if_neg (by
      simp only [List.length_append, List.length_replicate, blockSep, shortStr]
      norm_num)]
    rw [if_pos (by simp only [List.length_replicate]; omega)]
    rfl
  rw [step1]
  have step2 : packPiece 2000 ([shortStr], List.replicate 2000 'x') (List.replicate 500 'x') =
      ([shortStr, List.replicate 2000 'x'], List.replicate 500 'x') := by
    simp only [packPiece]
    rw [if_neg (by rw [replicate_x_not_empty 2000 (by omega)]; simp)]
    rw [if_neg (by
      simp only [List.length_append, List.length_replicate, blockSep]
      norm_num)]
    rw [if_pos (by simp only [List.length_replicate]; omega)]
    rfl
  rw [step2]

/-- The packing of `["short", "x"*2500]` at `max_len = 2000`, computed
symbolically: three message units. -/
theorem pack_short_x2500 :
    split_blocks_to_messages [shortStr, x2500] 2000 =
      [shortStr, List.replicate 2000 'x', List.replicate 500 'x'] := by
  rw [split_blocks_to_messages]
  rw [List.foldl_cons, List.foldl_cons, List.foldl_nil, packBlock_short, packBlock_x2500]
  rw [if_neg (by rw [replicate_x_not_empty 500 (by omega)]; simp)]
  rfl

end ArxivDigest

namespace ArxivDigest

/-! ## C7: the worked packing example -/

/-- C7, counterexample.  `pack(["short", "x"*2500], 2000)` does not produce
exactly two units: it produces three (`"short"`, then a 2000-character unit,
then a 500-character unit). -/
theorem c7_counterexample :
    (split_blocks_to_messages [shortStr, x2500] 2000).length ≠ 2 := by
  rw [pack_short_x2500]
  decide

/-- C7, amended.  `pack(["short", "x"*2500], 2000)` produces exactly three
units: `"short"` alone, then `"x"*2500` split into a 2000-character unit and
a 500-character unit. -/
theorem c7_amended_three_units :
    split_blocks_to_messages [shortStr, x2500] 2000 =
      [shortStr, List.replicate 2000 'x', List.replicate 500 'x'] :=
  pack_short_x2500

/-! ## C1: the cutoff calculator -/

/-- C1.  `compute_cutoff_utc` clamps the lookback to a minimum of 1 hour;
with no last success it returns `now - max(1h, lookback)`; otherwise it
returns `now - max(lookback, max(0, now - last))`, so for
`elapsed > lookback` the cutoff is `now - elapsed` and for
`0 ≤ elapsed ≤ lookback` it is `now - lookback`. -/
theorem c1_compute_cutoff (now last lb : Int) :
    compute_cutoff_utc now none lb = now - max lb 1 * 3600 ∧
    compute_cutoff_utc now (some last) lb =
      now - max (max lb 1 * 3600) (max 0 (now - last)) ∧
    compute_cutoff_utc now (some last) lb =
      (if max lb 1 * 3600 < max 0 (now - last) then now - max 0 (now - last)
       else now - max lb 1 * 3600) := by
  refine ⟨rfl, ?_, ?_⟩ <;>
    · simp only [compute_cutoff_utc, hoursToDelta, max_def]
      split_ifs <;> omega

/-! ## Lemmas: Python dict operations -/

theorem dictGet_dictSet_self {α : Type} (d : PyDict α) (k : String) (v : α) :
    dictGet (dictSet d k v) k = some v := by
  induction d with
  | nil => simp [dictSet, dictGet]
  | cons kv rest ih =>
    obtain ⟨k1, v1⟩ := kv
    by_cases h : k1 = k
    · simp [dictSet, dictGet, h]
    · simp [dictSet, dictGet, h, ih]

theorem dictGet_dictSet_ne {α : Type} (d : PyDict α) (k k2 : String) (v : α)
    (h : k ≠ k2) : dictGet (dictSet d k v) k2 = dictGet d k2 := by
  induction d with
  | nil => simp [dictSet, dictGet, h]
  | cons kv rest ih =>
    obtain ⟨k1, v1⟩ := kv
    by_cases h1 : k1 = k
    · subst h1
      simp [dictSet, dictGet, h]
    · simp [dictSet, dictGet, h1, ih]

/-! ## C3: loading a structurally invalid ledger -/

/-- C3, counterexample.  Loading a ledger whose `sent_ids` is the integer 42
is not a fatal error: `load_state` returns `Except.ok` and has silently reset
the field, yielding exactly the fresh default state. -/
theorem c3_counterexample :
    load_state (some corruptRaw) = Except.ok DEFAULT_STATE ∧
      dictGet corruptRaw "sent_ids" = some (JVal.jint 42) :=
  ⟨rfl, rfl⟩

/-- C3, amended.  For every structurally invalid persisted ledger (a
non-empty dict whose `sent_ids` value is not a list), loading succeeds —
no error is surfaced to the caller — and the `sent_ids` delivery history is
silently reset to the empty list. -/
theorem c3_amended_silent_repair (raw : PyDict JVal) (h1 : raw.isEmpty = false)
    (h2 : isJList (dictGet (dictUpdate DEFAULT_STATE raw) "sent_ids") = false) :
    load_state (some raw) = Except.ok (ensure_state_shape (some raw)) ∧
      dictGet (ensure_state_shape (some raw)) "sent_ids" = some (JVal.jlist []) := by
  refine ⟨rfl, ?_⟩
  simp only [ensure_state_shape, h1, Bool.false_eq_true, if_false, h2]
  split
  · exact dictGet_dictSet_self _ _ _
  · rw [dictGet_dictSet_ne _ _ _ _ (by decide)]
    exact dictGet_dictSet_self _ _ _

/-- Witness for C3's amended theorem at the concrete corrupt ledger. -/
theorem c3_amended_silent_repair_witness :
    load_state (some corruptRaw) = Except.ok (ensure_state_shape (some corruptRaw)) ∧
      dictGet (ensure_state_shape (some corruptRaw)) "sent_ids" =
        some (JVal.jlist []) :=
  c3_amended_silent_repair corruptRaw rfl rfl

end ArxivDigest

namespace ArxivDigest

/-! ## C4: the bounded sent-ids ledger -/

theorem appendNewIds_spec (current ids : List String) :
    ∃ new, appendNewIds current ids = current ++ new ∧ new.Nodup ∧
      ∀ x ∈ new, x ∉ current ∧ x ∈ ids ∧ x ≠ "" := by
  induction ids generalizing current with
  | nil => exact ⟨[], by simp [appendNewIds], List.nodup_nil, by simp⟩
  | cons a rest ih =>
    have hstep : appendNewIds current (a :: rest) =
        appendNewIds (if a ≠ "" ∧ ¬ a ∈ current then current ++ [a] else current)
          rest := by
      rw [appendNewIds, List.foldl_cons, appendNewIds]
    by_cases hc : a ≠ "" ∧ ¬ a ∈ current
    · obtain ⟨new1, heq, hnd, hmem⟩ := ih (current ++ [a])
      refine ⟨a :: new1, ?_, ?_, ?_⟩
      · rw [hstep, if_pos hc, heq, List.append_assoc]
        rfl
      · refine List.Nodup.cons ?_ hnd
        intro ha
        exact (hmem a ha).1 (by simp)
      · intro x hx
        rcases List.mem_cons.mp hx with rfl | hx
        · exact ⟨hc.2, List.mem_cons_self _ _, hc.1⟩
        · obtain ⟨hnc, hr, hne⟩ := hmem x hx
          refine ⟨fun hxc => hnc (by simp [hxc]), List.mem_cons_of_mem _ hr, hne⟩
    · obtain ⟨new1, heq, hnd, hmem⟩ := ih current
      refine ⟨new1, ?_, hnd, ?_⟩
      · rw [hstep, if_neg hc, heq]
      · intro x hx
        obtain ⟨hnc, hr, hne⟩ := hmem x hx
        exact ⟨hnc, List.mem_cons_of_mem _ hr, hne⟩

/-- C4, counterexample.  With `max_sent_ids = 0` the bound is not enforced:
Python `current[-0:]` is `current[0:]`, so one freshly appended id survives
the "truncation" and the resulting length exceeds the bound. -/
theorem c4_counterexample : ¬ ((append_sent_ids [] ["a"] 0).length ≤ 0) := by
  decide

/-- C4, amended.  For every ledger `sent_ids` list, id batch and bound
`max_sent_ids ≥ 1`: after `append_sent_ids` the length is at most
`max_sent_ids` (exactly `min max_sent_ids (length of the appended list)`);
ids already present (or empty) are not appended again — the appended list is
`current ++ new` with `new` duplicate-free, disjoint sets from `current`, drawn
from `ids`; and truncation removes from the front only, so the result is a
suffix of the appended list (the most-recently-added ids, in order). -/
theorem c4_amended_bound_and_suffix (current ids : List String)
    (maxSentIds : Nat) (h : 1 ≤ maxSentIds) :
    (append_sent_ids current ids maxSentIds).length ≤ maxSentIds ∧
    (append_sent_ids current ids maxSentIds).length =
      min maxSentIds (appendNewIds current ids).length ∧
    (∃ pre, pre ++ append_sent_ids current ids maxSentIds =
      appendNewIds current ids) ∧
    (∃ new, appendNewIds current ids = current ++ new ∧ new.Nodup ∧
      ∀ x ∈ new, x ∉ current ∧ x ∈ ids ∧ x ≠ "") := by
  refine ⟨?_, ?_, ?_, appendNewIds_spec current ids⟩
  · rw [append_sent_ids]
    split
    · rw [if_neg (by omega)]
      simp only [List.length_drop]
      omega
    · next hle => omega
  · rw [append_sent_ids]
    split
    · next hgt =>
      rw [if_neg (by omega)]
      simp only [List.length_drop]
      omega
    · next hle => omega
  · rw [append_sent_ids]
    split
    · rw [if_neg (by omega)]
      exact ⟨(appendNewIds current ids).take ((appendNewIds current ids).length - maxSentIds),
        List.take_append_drop _ _⟩
    · exact ⟨[], by simp⟩

/-- Witness for C4's amended theorem at a concrete input: one duplicate id,
one empty id, bound 1. -/
theorem c4_amended_bound_and_suffix_witness :
    (append_sent_ids ["a"] ["a", "b", ""] 1).length ≤ 1 ∧
    (append_sent_ids ["a"] ["a", "b", ""] 1).length =
      min 1 (appendNewIds ["a"] ["a", "b", ""]).length ∧
    (∃ pre, pre ++ append_sent_ids ["a"] ["a", "b", ""] 1 =
      appendNewIds ["a"] ["a", "b", ""]) ∧
    (∃ new, appendNewIds ["a"] ["a", "b", ""] = ["a"] ++ new ∧ new.Nodup ∧
      ∀ x ∈ new, x ∉ ["a"] ∧ x ∈ ["a", "b", ""] ∧ x ≠ "") :=
  c4_amended_bound_and_suffix ["a"] ["a", "b", ""] 1 (by decide)

/-! ## C5: the per-topic last-seen-published map -/

/-- C5, counterexample.  Supplying the older timestamp 50 for topic `"t"`
(stored: 100) does not leave the stored entry unchanged: the map is
overwritten with the older value. -/
theorem c5_counterexample :
    dictGet (update_success_metadata c5state 5
        [("t", some 50)]).last_max_published_utc_by_topic "t" = some 50 ∧
      ¬ dictGet (update_success_metadata c5state 5
        [("t", some 50)]).last_max_published_utc_by_topic "t" = some 100 := by
  refine ⟨rfl, ?_⟩
  decide

/-- C5, amended.  `update_success_metadata` overwrites a topic's stored
last-seen-published timestamp whenever a non-absent timestamp is supplied,
whether newer or older; an absent (`None`) timestamp leaves the map
unchanged; `last_success_utc` is set to `now` and `sent_ids` untouched. -/
theorem c5_amended_unconditional_overwrite (st : LedgerState) (now : Int)
    (topic : String) (dt : Int) :
    (update_success_metadata st now [(topic, some dt)]).last_success_utc =
      some now ∧
    dictGet (update_success_metadata st now
        [(topic, some dt)]).last_max_published_utc_by_topic topic = some dt ∧
    (update_success_metadata st now
        [(topic, none)]).last_max_published_utc_by_topic =
      st.last_max_published_utc_by_topic ∧
    (update_success_metadata st now [(topic, some dt)]).sent_ids = st.sent_ids := by
  refine ⟨rfl, ?_, rfl, rfl⟩
  simp only [update_success_metadata, List.foldl_cons, List.foldl_nil]
  exact dictGet_dictSet_self _ _ _

end ArxivDigest

namespace ArxivDigest

/-! ## C6 and C8: educational sampling -/

theorem get_cons_eraseIdx_perm {α : Type} (l : List α) (j : Nat) (h : j < l.length) :
    List.Perm (l.get ⟨j, h⟩ :: l.eraseIdx j) l := by
  induction l generalizing j with
  | nil => cases h
  | cons x xs ih =>
    cases j with
    | zero => simp
    | succ i =>
      have hi : i < xs.length := by
        simpa [List.length_cons, Nat.succ_lt_succ_iff] using h
      simp only [List.get_cons_succ, List.eraseIdx_cons_succ]
      exact (List.Perm.swap x _ _).trans (List.Perm.cons x (ih i hi))

theorem randomSample_length {α : Type} (g : List Nat) (pool : List α) (k : Nat) :
    (randomSample g pool k).length = min k pool.length := by
  induction k generalizing g pool with
  | zero => simp [randomSample]
  | succ k ih =>
    cases pool with
    | nil => simp [randomSample]
    | cons x xs =>
      simp only [randomSample, List.length_cons]
      rw [ih]
      have hj : g.headD 0 % (x :: xs).length < (x :: xs).length :=
        Nat.mod_lt _ (Nat.succ_pos _)
      have hlen := List.length_eraseIdx_add_one hj
      simp only [List.length_cons] at hlen ⊢
      omega

theorem randomSample_subperm {α : Type} (g : List Nat) (pool : List α) (k : Nat) :
    List.Subperm (randomSample g pool k) pool := by
  induction k generalizing g pool with
  | zero => simp [randomSample]
  | succ k ih =>
    cases pool with
    | nil => simp [randomSample]
    | cons x xs =>
      simp only [randomSample]
      have hj : g.headD 0 % (x :: xs).length < (x :: xs).length :=
        Nat.mod_lt _ (Nat.succ_pos _)
      have hperm := get_cons_eraseIdx_perm (x :: xs) _ hj
      have hrec := ih g.tail ((x :: xs).eraseIdx (g.headD 0 % (x :: xs).length))
      exact List.Subperm.trans ((List.subperm_cons _).mpr hrec) hperm.subperm

theorem subperm_nodup_of_nodup {α : Type} {l1 l2 : List α} (h : List.Subperm l1 l2)
    (hnd : l2.Nodup) : l1.Nodup := by
  obtain ⟨l, hperm, hsub⟩ := h
  exact hperm.nodup_iff.mp (hnd.sublist hsub)

/-- C8.  The educational output of `split_recent_and_educational`: if the cap
is 0 or the educational pool is empty, nothing is emitted; if the pool fits
under the cap, the whole pool is emitted in its existing order; otherwise
exactly `cap` items are drawn without replacement from the pool — a
sub-permutation of the pool, hence a subset, and duplicate-free whenever the
pool is. -/
theorem c8_educational_sampling (g : List Nat) (cands : List Entry)
    (maxR maxE : Int) :
    (((max maxE 0).toNat = 0 ∨ cands.filter (fun e => e.educational) = []) →
        (split_recent_and_educational g cands maxR maxE).2 = []) ∧
    ((cands.filter (fun e => e.educational)).length ≤ (max maxE 0).toNat →
        (split_recent_and_educational g cands maxR maxE).2 =
          cands.filter (fun e => e.educational)) ∧
    ((max maxE 0).toNat < (cands.filter (fun e => e.educational)).length →
        (split_recent_and_educational g cands maxR maxE).2.length =
            (max maxE 0).toNat ∧
          List.Subperm (split_recent_and_educational g cands maxR maxE).2
            (cands.filter (fun e => e.educational)) ∧
          (split_recent_and_educational g cands maxR maxE).2 ⊆
            cands.filter (fun e => e.educational) ∧
          ((cands.filter (fun e => e.educational)).Nodup →
            (split_recent_and_educational g cands maxR maxE).2.Nodup)) := by
  simp only [split_recent_and_educational]
  refine ⟨?_, ?_, ?_⟩
  · intro h
    rcases h with h | h
    · rw [if_pos (Or.inl h)]
    · rw [if_pos (Or.inr (by simp [List.isEmpty_iff, h]))]
  · intro h
    by_cases h0 : (max maxE 0).toNat = 0 ∨
        (cands.filter (fun e => e.educational)).isEmpty = true
    · rw [if_pos h0]
      rcases h0 with h0 | h0
      · rw [h0] at h
        have hz := Nat.le_zero.mp h
        rw [List.length_eq_zero] at hz
        rw [hz]
      · rw [List.isEmpty_iff] at h0
        rw [h0]
    · rw [if_neg h0, if_pos h]
  · intro h
    have h2 : ¬ ((cands.filter (fun e => e.educational)).length ≤
        (max maxE 0).toNat) := by omega
    by_cases h0 : (max maxE 0).toNat = 0 ∨
        (cands.filter (fun e => e.educational)).isEmpty = true
    · rw [if_pos h0]
      rcases h0 with h0 | h0
      · exact ⟨by simpa using h0.symm, List.nil_subperm, by simp, by simp⟩
      · rw [List.isEmpty_iff] at h0
        rw [h0] at h
        simp at h
    · rw [if_neg h0, if_neg h2]
      have hsub := randomSample_subperm g (cands.filter (fun e => e.educational))
        (max maxE 0).toNat
      refine ⟨?_, hsub, hsub.subset, fun hnd => subperm_nodup_of_nodup hsub hnd⟩
      show (randomSample g (cands.filter (fun e => e.educational))
        (max maxE 0).toNat).length = (max maxE 0).toNat
      rw [randomSample_length]
      omega

/-- Witness for C8 in the sampling case: pool of three, cap 2, a fixed
generator stream. -/
theorem c8_educational_sampling_witness :
    (split_recent_and_educational [1, 0] [eduA, eduB, eduC] 0 2).2.length =
        (max (2 : Int) 0).toNat ∧
      List.Subperm (split_recent_and_educational [1, 0] [eduA, eduB, eduC] 0 2).2
        ([eduA, eduB, eduC].filter (fun e => e.educational)) ∧
      (split_recent_and_educational [1, 0] [eduA, eduB, eduC] 0 2).2 ⊆
        [eduA, eduB, eduC].filter (fun e => e.educational) ∧
      (([eduA, eduB, eduC].filter (fun e => e.educational)).Nodup →
        (split_recent_and_educational [1, 0] [eduA, eduB, eduC] 0 2).2.Nodup) :=
  (c8_educational_sampling [1, 0] [eduA, eduB, eduC] 0 2).2.2 (by decide)

/-- C6.  `split_recent_and_educational` draws its educational sample through
the process-global `random` generator: the function signature has no
random-source parameter, and with the hidden global generator state made
explicit (the stream `g` of `randomSample`), the same candidates and caps
yield different outputs under different ambient generator states.  For a
fixed global state the function is a pure function of its inputs, so two
runs with the same seed coincide — but the seed is not injectable at the
call site (src/main.py lines 276–280 pass no random source). -/
theorem c6_sampling_uses_global_generator :
    (split_recent_and_educational [0] [eduA, eduB] 0 1).2 = [eduA] ∧
      (split_recent_and_educational [1] [eduA, eduB] 0 1).2 = [eduB] ∧
      (split_recent_and_educational [0] [eduA, eduB] 0 1).2 ≠
        (split_recent_and_educational [1] [eduA, eduB] 0 1).2 := by
  decide

end ArxivDigest

namespace ArxivDigest

/-! ## C9: commit ordering of the run -/

/-- C9, counterexample.  On a run with no pre-existing state file whose fetch
fails before anything reaches the transport, the persisted ledger file is
nevertheless written once: `load_state` creates it with the default ledger,
so the file is not left untouched by the failed run. -/
theorem c9_counterexample :
    (runModel c9oracle 0 10 36).1 = Except.error () ∧
      (runModel c9oracle 0 10 36).2 = [defaultLedger] :=
  ⟨rfl, rfl⟩

/-- C9, amended.  The write trace of a run is exactly: one initial write of
the default ledger when (and only when) the state file does not exist at
load, followed by exactly one commit write — and that only when every fetch
succeeded and the transport accepted every message unit.  In particular,
when a state file already exists, it is written at most once and only after
a fully successful hand-off, and any failure leaves it untouched. -/
theorem c9_commit_ordering (o : RunOracle) (now : Int) (maxSentIds : Nat)
    (lb : Int) :
    (runModel o now maxSentIds lb).2 =
      (if o.stateFileExists then [] else [defaultLedger]) ++
        (if runSucceeds o then [runCommit o now maxSentIds] else []) ∧
    ((runModel o now maxSentIds lb).1 = Except.ok 0 ↔ runSucceeds o = true) ∧
    (runModel o now maxSentIds lb).2.length ≤
      (if o.stateFileExists then 1 else 2) := by
  rcases hc : collectFetched o.fetchResults with _ | ids
  · have hs : runSucceeds o = false := by
      simp [runSucceeds, hc]
    simp only [runModel, runCommit, hc, hs, Bool.false_eq_true, if_false,
      List.append_nil]
    refine ⟨by simp, by simp, ?_⟩
    cases o.stateFileExists <;> simp
  · cases hsend : o.sendOk with
    | false =>
      have hs : runSucceeds o = false := by
        simp [runSucceeds, hc, hsend]
      simp only [runModel, runCommit, hc, hs, hsend, Bool.false_eq_true,
        if_false, List.append_nil]
      refine ⟨by simp, by simp, ?_⟩
      cases o.stateFileExists <;> simp
    | true =>
      have hs : runSucceeds o = true := by
        simp [runSucceeds, hc, hsend]
      simp only [runModel, runCommit, hc, hs, hsend, if_true, Option.getD_some]
      refine ⟨by simp, by simp, ?_⟩
      cases o.stateFileExists <;> simp

end ArxivDigest
